import Mathlib

/-!
Verification development for the `so-lookup` scanner (src/main.rs).

The program reads candidate executable files, parses them as ELF with the
`goblin` crate, extracts the dynamic string table and the DT_NEEDED
dependencies, aggregates (architecture, library name) to lists of dependent
paths in nested BTreeMaps, and emits one sorted report per architecture.

Shallow embedding conventions:
* Bytes are `Nat`; library names and file paths are byte lists (`List Nat`).
  Rust `String` (the BTreeMap soname keys) compares bytewise, modelled by the
  lexicographic order on `List Nat`.  `PathBuf` compares component-wise
  (`Path::cmp` walks `components()`), modelled by `path_le`: lexicographic
  over the separator-split component sequence, components compared bytewise.
  For any two paths of one walkdir run — the only comparisons `exes.sort()`
  performs — the two agree bytewise on the walk root and the appended entry
  names contain no separator, no empty and no "." component, so splitting on
  the separator byte 47 yields exactly the normalized component sequences
  `Path::cmp` compares.
* `std::fs::read` and `goblin::elf::Elf::parse` are external collaborators;
  the scan model takes the per-path processing outcome as input, and
  `process_one` models the body of the Rust function of the same name from
  the parsed ELF on: the `e_machine` field and the dynamic entry list.
* The two `.unwrap()` calls on the DT_STRTAB / DT_STRSZ lookups can panic;
  a panic is modelled as `none` in `Option`, a normal return as `some`.
* `goblin::strtab::Strtab::parse` (with delimiter 0) and `get_at` follow the
  goblin implementation: parsing rejects a table region that exceeds the
  file bounds or whose NUL-delimited chunks are not valid UTF-8; `get_at`
  resolves an in-range offset to the byte suffix of its chunk, returns the
  empty string at offset = size when the table does not end in NUL, and
  returns `none` otherwise.  Strings are kept as byte lists; UTF-8 checks
  use the byte-level validator below.
* The nested `BTreeMap`s are modelled as association lists sorted strictly
  by key; `entry(k).or_insert(d)` followed by a mutation is `mapUpdate`.
* Rust stable sorts (`itertools::sorted_by_key`, `Vec::sort`) are modelled
  by `List.insertionSort`, which is also stable, with the same key
  comparator; the `as isize` cast on a `usize` length is order-preserving
  for any realizable length.
-/

deriving instance DecidableEq for Except

/-- ELF dynamic entry tag for a needed library (DT_NEEDED). -/
def DT_NEEDED : Nat := 1

/-- ELF dynamic entry tag for the string table address (DT_STRTAB). -/
def DT_STRTAB : Nat := 5

/-- ELF dynamic entry tag for the string table size (DT_STRSZ). -/
def DT_STRSZ : Nat := 10

/-- One (tag, value) pair of the dynamic section, as parsed by goblin. -/
structure Dyn where
  d_tag : Nat
  d_val : Nat
  deriving DecidableEq, Repr

/-- The parts of a parsed ELF that `process_one` reads: the machine
identifier from the header and the optional dynamic entry list. -/
structure Elf where
  e_machine : Nat
  dynamic : Option (List Dyn)
  deriving DecidableEq, Repr

/-- The error enum of src/main.rs (payloads dropped). -/
inductive ErrorKind where
  | CannotRead
  | NotAnElf
  | NotDynamic
  | StrtableBad
  deriving DecidableEq, Repr

/-- A UTF-8 continuation byte (0x80 to 0xBF). -/
def contB (b : Nat) : Bool := 128 ≤ b && b < 192

/-- Byte-level UTF-8 validity (RFC 3629: rejects overlong encodings,
surrogates and code points above U+10FFFF), as `str::from_utf8` checks. -/
def validUtf8 : List Nat → Bool
  | [] => true
  | b :: rest =>
    if b < 128 then validUtf8 rest
    else if b < 194 then false
    else if b < 224 then
      match rest with
      | c :: rest2 => contB c && validUtf8 rest2
      | [] => false
    else if b < 240 then
      match rest with
      | c :: d :: rest2 =>
        contB c && contB d &&
          (decide (b ≠ 224) || decide (160 ≤ c)) &&
          (decide (b ≠ 237) || decide (c < 160)) &&
          validUtf8 rest2
      | _ => false
    else if b < 245 then
      match rest with
      | c :: d :: e :: rest2 =>
        contB c && contB d && contB e &&
          (decide (b ≠ 240) || decide (144 ≤ c)) &&
          (decide (b ≠ 244) || decide (c < 144)) &&
          validUtf8 rest2
      | _ => false
    else false

/-- `goblin::strtab::Strtab::parse bytes offset len 0`: fails when the
declared region overflows the byte buffer, otherwise takes the region
`bytes[offset .. offset+len]` and validates each NUL-delimited chunk as
UTF-8 (`parse_strings`).  Returns the region on success. -/
def strtab_parse (bytes : List Nat) (offset len : Nat) : Except Unit (List Nat) :=
  if offset + len > bytes.length then Except.error ()
  else
    let table := (bytes.drop offset).take len
    if (table.splitOn 0).all validUtf8 then Except.ok table
    else Except.error ()

/-- `Strtab::get_at`: an in-range offset resolves to the bytes from the
offset up to the next NUL (or the end of the table); an offset equal to the
size of a table that does not end in NUL resolves to the empty string
(goblin keeps the unterminated final chunk); anything else is `none`.  A
continuation byte at the offset is not a `str` char boundary, so goblin
returns `none` there (only reachable states: parsing already validated the
chunks as UTF-8). -/
def get_at (table : List Nat) (offset : Nat) : Option (List Nat) :=
  if offset < table.length then
    if contB (table.getD offset 0) then none
    else some ((table.drop offset).takeWhile (fun b => b ≠ 0))
  else if offset = table.length ∧ table ≠ [] ∧ table.getLast? ≠ some 0 then some []
  else none

/-- `goblin::elf::dynamic::Dynamic::get_libraries`: walk the dynamic
entries in order, and for each DT_NEEDED entry push the resolved name;
entries whose offset does not resolve are skipped (goblin logs a warning
and continues). -/
def get_libraries (dyns : List Dyn) (strtab : List Nat) : List (List Nat) :=
  dyns.foldl
    (fun needed d =>
      if d.d_tag = DT_NEEDED then
        match get_at strtab d.d_val with
        | some lib => needed ++ [lib]
        | none => needed
      else needed)
    []

/-- `process_one` from the parsed ELF on (lines 34-58 of src/main.rs):
require a dynamic section, look up DT_STRTAB and DT_STRSZ with `.unwrap()`
(panic, i.e. `none`, when absent), decode the string table taking the
DT_STRTAB value directly as a file byte offset, and collect the libraries.
Returns `some` of the Rust function result, `none` on panic. -/
def process_one (file : List Nat) (elf : Elf) :
    Option (Except ErrorKind (Nat × List (List Nat))) :=
  match elf.dynamic with
  | none => some (Except.error ErrorKind.NotDynamic)
  | some dyns =>
    match (dyns.find? (fun t => t.d_tag == DT_STRTAB)).map Dyn.d_val with
    | none => none
    | some dyn_strtable =>
      match (dyns.find? (fun t => t.d_tag == DT_STRSZ)).map Dyn.d_val with
      | none => none
      | some dyn_strtable_size =>
        match strtab_parse file dyn_strtable dyn_strtable_size with
        | Except.error _ => some (Except.error ErrorKind.StrtableBad)
        | Except.ok table =>
          some (Except.ok (elf.e_machine, get_libraries dyns table))

/-- The walk filter of main (lines 74-77): keep regular files whose
permission mode has the owner-execute bit (`mode & 0o100 != 0`). -/
def is_candidate (is_file : Bool) (mode : Nat) : Bool :=
  is_file && decide (mode &&& 64 ≠ 0)

/-! ## Aggregation: the nested BTreeMaps of main (lines 64, 80-90) -/

abbrev Machine := Nat

abbrev Lib := List Nat

abbrev FsPath := List Nat

abbrev InnerMap := List (Lib × List FsPath)

abbrev ScanState := List (Machine × InnerMap)

abbrev ProcResult := Except ErrorKind (Machine × List Lib)

/-- `BTreeMap::entry(k).or_insert(d)` followed by an in-place update `f` of
the value, on a key-sorted association list. -/
def mapUpdate {K V : Type} [LinearOrder K] (k : K) (d : V) (f : V → V) :
    List (K × V) → List (K × V)
  | [] => [(k, f d)]
  | (k2, v) :: rest =>
    if k < k2 then (k, f d) :: (k2, v) :: rest
    else if k2 < k then (k2, v) :: mapUpdate k d f rest
    else (k2, f v) :: rest

/-- Association list lookup (`BTreeMap::get`). -/
def alookup {K V : Type} [LinearOrder K] (k : K) : List (K × V) → Option V
  | [] => none
  | (k2, v) :: rest => if k2 = k then some v else alookup k rest

/-- One iteration of the inner loop of main (lines 82-88): ensure the
(machine, lib) bucket exists and push the binary path. -/
def insert_lib (machine : Machine) (lib : Lib) (p : FsPath) (st : ScanState) :
    ScanState :=
  mapUpdate machine [] (fun inner => mapUpdate lib [] (fun ps => ps ++ [p]) inner) st

/-- Processing of one walk entry in main (lines 80-90): a successful parse
contributes its path once per listed library, an error contributes
nothing. -/
def scan_step (st : ScanState) (entry : FsPath × ProcResult) : ScanState :=
  match entry.2 with
  | Except.ok (machine, libs) =>
    libs.foldl (fun st2 lib => insert_lib machine lib entry.1 st2) st
  | Except.error _ => st

/-- The whole scan loop: fold the walk into the accumulator. -/
def scan (walk : List (FsPath × ProcResult)) : ScanState :=
  walk.foldl scan_step []

/-- The paths a single walk entry contributes to the (m, lib) bucket:
its own path, once per occurrence of `lib` in its dependency list. -/
def entry_paths (m : Machine) (lib : Lib) (e : FsPath × ProcResult) :
    List FsPath :=
  match e.2 with
  | Except.ok (m2, libs) =>
    if m2 = m then (libs.filter (fun l => l == lib)).map (fun _ => e.1) else []
  | Except.error _ => []

/-- Specification of a bucket content: concatenate the contributions of the
walk entries in walk order. -/
def pathsFor (walk : List (FsPath × ProcResult)) (m : Machine) (lib : Lib) :
    List FsPath :=
  walk.flatMap (entry_paths m lib)

/-- Read a bucket out of the accumulator (empty when absent). -/
def statePaths (st : ScanState) (m : Machine) (lib : Lib) : List FsPath :=
  (alookup lib ((alookup m st).getD [])).getD []

/-! ## Report emission (lines 92-107) -/

/-- One output line: either the `soname (count exes)` header or an
indented dependent-path line. -/
inductive Line where
  | header (soname : Lib) (count : Nat)
  | dep (path : FsPath)
  deriving DecidableEq, Repr

/-- `PathBuf::to_str` at the byte level: the bytes themselves when valid
UTF-8, `none` otherwise. -/
def path_to_str (p : FsPath) : Option FsPath :=
  if validUtf8 p then some p else none

/-- `PathBuf::components()` for the paths one walkdir run yields: split on
the separator byte 47.  (All compared paths share the walk root bytewise
and the appended directory-entry names contain no separator and are never
empty or ".", so this matches the normalized component iterator.) -/
def path_components (p : FsPath) : List (List Nat) :=
  p.splitOn 47

/-- `PathBuf`'s Ord as `Vec::sort` uses it (`Path::cmp`): lexicographic
comparison of the component sequences, each component compared bytewise. -/
def path_le (a b : FsPath) : Prop :=
  path_components a ≤ path_components b

instance : DecidableRel path_le := fun a b =>
  inferInstanceAs (Decidable (path_components a ≤ path_components b))

instance : IsTotal FsPath path_le :=
  ⟨fun a b => le_total (path_components a) (path_components b)⟩

instance : IsTrans FsPath path_le :=
  ⟨fun _ _ _ h1 h2 => le_trans h1 h2⟩

theorem path_components_injective {a b : FsPath}
    (h : path_components a = path_components b) : a = b := by
  have ha := List.intercalate_splitOn a 47
  have hb := List.intercalate_splitOn b 47
  rw [path_components, path_components] at h
  rw [← ha, ← hb]
  exact congrArg _ h

instance : IsAntisymm FsPath path_le :=
  ⟨fun _ _ h1 h2 => path_components_injective (le_antisymm h1 h2)⟩

/-- Run `f` over a list, panicking (`none`) as soon as one element does;
models a loop of `.unwrap()` calls. -/
def unwrapAll {A B : Type} (f : A → Option B) : List A → Option (List B)
  | [] => some []
  | a :: rest =>
    match f a, unwrapAll f rest with
    | some b, some bs => some (b :: bs)
    | _, _ => none

/-- Lines 97-101: `sorted_by_key(|(_, exes)| exes.len() as isize).rev()` on
the name-ascending iterator of the inner map: stable ascending sort by
path-list length, then reversal of the whole sequence. -/
def finalize_inner (inner : InnerMap) : InnerMap :=
  (List.insertionSort (fun a b => a.2.length ≤ b.2.length) inner).reverse

/-- Lines 102-106 for one (soname, exes) pair: the header line, then the
paths sorted ascending by `PathBuf`'s component-wise order (`exes.sort()`),
each converted with `to_str().unwrap()`. -/
def emit_entry (e : Lib × List FsPath) : Option (List Line) :=
  (unwrapAll path_to_str (List.insertionSort path_le e.2)).map
    (fun ps => Line.header e.1 e.2.length :: ps.map Line.dep)

/-- The full report body for one architecture. -/
def emit_inner (inner : InnerMap) : Option (List Line) :=
  (unwrapAll emit_entry (finalize_inner inner)).map List.flatten

/-- The whole report: one (machine, lines) file per architecture, machines
in ascending order (BTreeMap iteration); `none` when emission panics. -/
def emit (st : ScanState) : Option (List (Machine × List Line)) :=
  unwrapAll (fun me => (emit_inner me.2).map (fun ls => (me.1, ls))) st

/-! ## Association-map lemmas -/

/-- The BTreeMap representation invariant: keys strictly ascending. -/
def SortedKeys {K V : Type} [LinearOrder K] (l : List (K × V)) : Prop :=
  l.Pairwise (fun a b => a.1 < b.1)

theorem sortedKeys_nodup {K V : Type} [LinearOrder K] {l : List (K × V)}
    (h : SortedKeys l) : (l.map Prod.fst).Nodup := by
  rw [List.Nodup, List.pairwise_map]
  exact h.imp fun hab => ne_of_lt hab

theorem alookup_eq_none_iff {K V : Type} [LinearOrder K] {k : K} :
    ∀ {l : List (K × V)}, alookup k l = none ↔ k ∉ l.map Prod.fst
  | [] => by simp [alookup]
  | (k2, v) :: rest => by
    by_cases h : k2 = k
    · subst h; simp [alookup]
    · simp [alookup, h, @alookup_eq_none_iff _ _ _ k rest, Ne.symm h]

theorem alookup_mem {K V : Type} [LinearOrder K] {k : K} {v : V} :
    ∀ {l : List (K × V)}, alookup k l = some v → (k, v) ∈ l
  | [], h => by simp [alookup] at h
  | (k2, v2) :: rest, h => by
    by_cases hk : k2 = k
    · subst hk
      rw [alookup, if_pos rfl] at h
      cases h
      exact List.mem_cons_self _ _
    · rw [alookup, if_neg hk] at h
      exact List.mem_cons_of_mem _ (alookup_mem h)

theorem alookup_of_mem_nodup {K V : Type} [LinearOrder K] {k : K} {v : V} :
    ∀ {l : List (K × V)}, (k, v) ∈ l → (l.map Prod.fst).Nodup →
      alookup k l = some v
  | [], h, _ => by simp at h
  | (k2, v2) :: rest, h, hn => by
    have hn2 := hn
    rw [List.map_cons, List.nodup_cons] at hn2
    rcases List.mem_cons.1 h with h1 | h1
    · cases h1; simp [alookup]
    · have hk : k2 ≠ k := by
        rintro rfl
        exact hn2.1 (List.mem_map.2 ⟨(k2, v), h1, rfl⟩)
      rw [alookup, if_neg hk]
      exact alookup_of_mem_nodup h1 hn2.2

theorem mapUpdate_keys_mem {K V : Type} [LinearOrder K] {k j : K} {d : V}
    {f : V → V} :
    ∀ {l : List (K × V)},
      (j ∈ (mapUpdate k d f l).map Prod.fst ↔ j = k ∨ j ∈ l.map Prod.fst)
  | [] => by simp [mapUpdate]
  | (k2, v) :: rest => by
    rcases lt_trichotomy k k2 with h | h | h
    · simp [mapUpdate, h]
    · subst h
      simp [mapUpdate, lt_irrefl]
    · have h1 : ¬k < k2 := not_lt_of_gt h
      simp [mapUpdate, h1, h, @mapUpdate_keys_mem K V _ k j d f rest]
      tauto

theorem mapUpdate_sorted {K V : Type} [LinearOrder K] {k : K} {d : V}
    {f : V → V} :
    ∀ {l : List (K × V)}, SortedKeys l → SortedKeys (mapUpdate k d f l)
  | [], _ => by simp [mapUpdate, SortedKeys]
  | (k2, v) :: rest, hs => by
    have hs2 : SortedKeys rest := (List.pairwise_cons.1 hs).2
    have hhd : ∀ b ∈ rest, k2 < b.1 := fun b hb => (List.pairwise_cons.1 hs).1 b hb
    rcases lt_trichotomy k k2 with h | h | h
    · simp only [mapUpdate, if_pos h]
      refine List.pairwise_cons.2 ⟨?_, hs⟩
      intro b hb
      rcases List.mem_cons.1 hb with rfl | hb2
      · exact h
      · exact h.trans (hhd b hb2)
    · subst h
      simp only [mapUpdate, if_neg (lt_irrefl k)]
      exact List.pairwise_cons.2 ⟨hhd, hs2⟩
    · have h1 : ¬k < k2 := not_lt_of_gt h
      simp only [mapUpdate, if_neg h1, if_pos h]
      refine List.pairwise_cons.2 ⟨?_, mapUpdate_sorted hs2⟩
      intro b hb
      have hmem0 : b.1 ∈ (mapUpdate k d f rest).map Prod.fst :=
        List.mem_map.2 ⟨b, hb, rfl⟩
      have hmem : b.1 = k ∨ b.1 ∈ rest.map Prod.fst := by
        rwa [@mapUpdate_keys_mem K V _ k b.1 d f rest] at hmem0
      rcases hmem with h2 | h2
      · rw [h2]; exact h
      · obtain ⟨c, hc, hc2⟩ := List.mem_map.1 h2
        exact hc2 ▸ hhd c hc

theorem alookup_mapUpdate_self {K V : Type} [LinearOrder K] {k : K} {d : V}
    {f : V → V} :
    ∀ {l : List (K × V)}, SortedKeys l →
      alookup k (mapUpdate k d f l) = some (f ((alookup k l).getD d))
  | [], _ => by simp [mapUpdate, alookup]
  | (k2, v) :: rest, hs => by
    have hs2 : SortedKeys rest := (List.pairwise_cons.1 hs).2
    have hhd : ∀ b ∈ rest, k2 < b.1 := fun b hb => (List.pairwise_cons.1 hs).1 b hb
    rcases lt_trichotomy k k2 with h | h | h
    · have hk2 : k2 ≠ k := (ne_of_lt h).symm
      have hnone : alookup k rest = none := by
        rw [alookup_eq_none_iff]
        intro hmem
        obtain ⟨c, hc, hc2⟩ := List.mem_map.1 hmem
        have hlt := hhd c hc
        rw [hc2] at hlt
        exact absurd hlt (not_lt_of_gt h)
      simp [mapUpdate, if_pos h, alookup, hk2, hnone]
    · subst h
      simp [mapUpdate, lt_irrefl, alookup]
    · have h1 : ¬k < k2 := not_lt_of_gt h
      have hk2 : k2 ≠ k := ne_of_lt h
      simp [mapUpdate, h1, h, alookup, hk2]
      exact alookup_mapUpdate_self hs2

theorem alookup_mapUpdate_ne {K V : Type} [LinearOrder K] {k j : K} {d : V}
    {f : V → V} (hjk : j ≠ k) :
    ∀ {l : List (K × V)}, alookup j (mapUpdate k d f l) = alookup j l
  | [] => by simp [mapUpdate, alookup, Ne.symm hjk]
  | (k2, v) :: rest => by
    rcases lt_trichotomy k k2 with h | h | h
    · simp [mapUpdate, if_pos h, alookup, Ne.symm hjk]
    · subst h
      simp [mapUpdate, lt_irrefl, alookup, Ne.symm hjk]
    · have h1 : ¬k < k2 := not_lt_of_gt h
      by_cases h2 : k2 = j
      · subst h2
        rw [mapUpdate, if_neg h1, if_pos h]
        simp [alookup]
      · simp [mapUpdate, h1, h, alookup, h2]
        exact alookup_mapUpdate_ne hjk

theorem mapUpdate_entry_mem {K V : Type} [LinearOrder K] {k : K} {d : V}
    {f : V → V} {e : K × V} :
    ∀ {l : List (K × V)}, e ∈ mapUpdate k d f l →
      e ∈ l ∨ e = (k, f d) ∨ ∃ v, (e.1, v) ∈ l ∧ e.2 = f v
  | [], h => by
    simp [mapUpdate] at h
    exact Or.inr (Or.inl h)
  | (k2, v) :: rest, h => by
    rcases lt_trichotomy k k2 with h1 | h1 | h1
    · rw [mapUpdate, if_pos h1] at h
      rcases List.mem_cons.1 h with rfl | h2
      · exact Or.inr (Or.inl rfl)
      · exact Or.inl h2
    · subst h1
      simp only [mapUpdate, if_neg (lt_irrefl k)] at h
      rcases List.mem_cons.1 h with rfl | h2
      · exact Or.inr (Or.inr ⟨v, List.mem_cons_self _ _, rfl⟩)
      · exact Or.inl (List.mem_cons_of_mem _ h2)
    · rw [mapUpdate, if_neg (not_lt_of_gt h1), if_pos h1] at h
      rcases List.mem_cons.1 h with rfl | h2
      · exact Or.inl (List.mem_cons_self _ _)
      · rcases mapUpdate_entry_mem h2 with h3 | h3 | ⟨v2, h3, h4⟩
        · exact Or.inl (List.mem_cons_of_mem _ h3)
        · exact Or.inr (Or.inl h3)
        · exact Or.inr (Or.inr ⟨v2, List.mem_cons_of_mem _ h3, h4⟩)
theorem mapUpdate_ne_nil {K V : Type} [LinearOrder K] {k : K} {d : V}
    {f : V → V} : ∀ {l : List (K × V)}, mapUpdate k d f l ≠ []
  | [] => by simp [mapUpdate]
  | (k2, v) :: rest => by
    rcases lt_trichotomy k k2 with h | h | h
    · simp [mapUpdate, h]
    · subst h; simp [mapUpdate, lt_irrefl]
    · simp [mapUpdate, not_lt_of_gt h, h]

/-! ## Scan invariants and the bucket characterization -/

/-- Representation invariant of the accumulator: both map levels are
key-sorted, inner maps are nonempty and buckets are nonempty. -/
def WFState (st : ScanState) : Prop :=
  SortedKeys st ∧ (∀ e ∈ st, SortedKeys e.2) ∧
    (∀ e ∈ st, e.2 ≠ []) ∧ (∀ e ∈ st, ∀ q ∈ e.2, q.2 ≠ [])

theorem wf_nil : WFState [] := by
  refine ⟨List.Pairwise.nil, ?_, ?_, ?_⟩ <;> simp

theorem wf_insert_lib {st : ScanState} (h : WFState st) (m : Machine)
    (lib : Lib) (p : FsPath) : WFState (insert_lib m lib p st) := by
  obtain ⟨h1, h2, h3, h4⟩ := h
  refine ⟨mapUpdate_sorted h1, ?_, ?_, ?_⟩
  · intro e he
    rcases mapUpdate_entry_mem he with h5 | h5 | ⟨v, h5, h6⟩
    · exact h2 e h5
    · rw [h5]
      show SortedKeys (mapUpdate lib [] (fun ps => ps ++ [p]) ([] : InnerMap))
      exact mapUpdate_sorted (by simp [SortedKeys])
    · rw [h6]
      exact mapUpdate_sorted (h2 (e.1, v) h5)
  · intro e he
    rcases mapUpdate_entry_mem he with h5 | h5 | ⟨v, h5, h6⟩
    · exact h3 e h5
    · rw [h5]; simp [mapUpdate]
    · rw [h6]; exact mapUpdate_ne_nil
  · intro e he q hq
    rcases mapUpdate_entry_mem he with h5 | h5 | ⟨v, h5, h6⟩
    · exact h4 e h5 q hq
    · rw [h5] at hq
      simp only [mapUpdate] at hq
      rcases List.mem_singleton.1 hq with rfl
      simp
    · rw [h6] at hq
      rcases mapUpdate_entry_mem hq with h7 | h7 | ⟨w, h7, h8⟩
      · exact h4 (e.1, v) h5 q h7
      · rw [h7]; simp
      · rw [h8]; simp

theorem wf_libs_foldl {m : Machine} {p : FsPath} :
    ∀ (libs : List Lib) {st : ScanState}, WFState st →
      WFState (libs.foldl (fun s l => insert_lib m l p s) st)
  | [], _, h => h
  | lib :: rest, st, h => by
    rw [List.foldl_cons]
    exact wf_libs_foldl rest (wf_insert_lib h m lib p)

theorem wf_scan_step {st : ScanState} (h : WFState st)
    (e : FsPath × ProcResult) : WFState (scan_step st e) := by
  obtain ⟨p, res⟩ := e
  cases res with
  | ok pr => exact wf_libs_foldl pr.2 h
  | error _ => exact h

theorem wf_scan_aux :
    ∀ (walk : List (FsPath × ProcResult)) {st : ScanState}, WFState st →
      WFState (walk.foldl scan_step st)
  | [], _, h => h
  | e :: rest, st, h => by
    rw [List.foldl_cons]
    exact wf_scan_aux rest (wf_scan_step h e)

theorem wf_scan (walk : List (FsPath × ProcResult)) : WFState (scan walk) :=
  wf_scan_aux walk wf_nil

theorem statePaths_insert_lib {st : ScanState} (hw : WFState st)
    (m0 : Machine) (lib0 : Lib) (p : FsPath) (m : Machine) (lib : Lib) :
    statePaths (insert_lib m0 lib0 p st) m lib =
      statePaths st m lib ++ (if m0 = m ∧ lib0 = lib then [p] else []) := by
  obtain ⟨h1, h2, _, _⟩ := hw
  by_cases hm : m0 = m
  · subst hm
    rw [statePaths, insert_lib, alookup_mapUpdate_self h1]
    have hin : SortedKeys ((alookup m0 st).getD []) := by
      cases hst : alookup m0 st with
      | none => simp [SortedKeys]
      | some v => exact h2 (m0, v) (alookup_mem hst)
    by_cases hl : lib0 = lib
    · subst hl
      rw [Option.getD_some, alookup_mapUpdate_self hin]
      simp [statePaths]
    · rw [Option.getD_some, alookup_mapUpdate_ne (Ne.symm hl)]
      simp [statePaths, hl]
  · rw [statePaths, insert_lib, alookup_mapUpdate_ne (Ne.symm hm)]
    simp [statePaths, hm]

theorem statePaths_libs_foldl {m0 : Machine} {p : FsPath} {m : Machine}
    {lib : Lib} :
    ∀ (libs : List Lib) {st : ScanState}, WFState st →
      statePaths (libs.foldl (fun s l => insert_lib m0 l p s) st) m lib =
        statePaths st m lib ++
          (if m0 = m then (libs.filter (fun l => l == lib)).map (fun _ => p)
           else [])
  | [], st, _ => by simp
  | l :: rest, st, hw => by
    rw [List.foldl_cons, statePaths_libs_foldl rest (wf_insert_lib hw m0 l p),
      statePaths_insert_lib hw, List.append_assoc]
    by_cases hm : m0 = m
    · by_cases hl : l = lib
      · simp [hm, hl]
      · simp [hm, hl]
    · simp [hm]

theorem statePaths_scan_aux {m : Machine} {lib : Lib} :
    ∀ (walk : List (FsPath × ProcResult)) {st : ScanState}, WFState st →
      statePaths (walk.foldl scan_step st) m lib =
        statePaths st m lib ++ pathsFor walk m lib
  | [], st, _ => by simp [pathsFor]
  | e :: rest, st, hw => by
    rw [List.foldl_cons, statePaths_scan_aux rest (wf_scan_step hw e)]
    have hstep : statePaths (scan_step st e) m lib =
        statePaths st m lib ++ entry_paths m lib e := by
      obtain ⟨p, res⟩ := e
      cases res with
      | ok pr =>
        obtain ⟨m0, libs⟩ := pr
        rw [scan_step]
        simpa [entry_paths] using statePaths_libs_foldl libs hw
      | error err => simp [scan_step, entry_paths]
    rw [hstep, List.append_assoc]
    simp [pathsFor]

/-- Master characterization: a bucket of the accumulator holds exactly the
walk-order concatenation of each entry contribution. -/
theorem statePaths_scan (walk : List (FsPath × ProcResult)) (m : Machine)
    (lib : Lib) : statePaths (scan walk) m lib = pathsFor walk m lib := by
  rw [scan, statePaths_scan_aux walk wf_nil]
  simp [statePaths, alookup]

/-! ## Sorting lemmas -/

/-- Ascending (length, name) lexicographic order on inner-map entries: the
order the stable length sort produces on a name-ascending input. -/
def lexLt (x y : Lib × List FsPath) : Prop :=
  x.2.length < y.2.length ∨ (x.2.length = y.2.length ∧ x.1 < y.1)

theorem lexLt_len_le {x y : Lib × List FsPath} (h : lexLt x y) :
    x.2.length ≤ y.2.length := by
  rcases h with h | ⟨h, _⟩
  · exact le_of_lt h
  · exact le_of_eq h

theorem orderedInsert_lex (a : Lib × List FsPath) :
    ∀ {l : InnerMap}, List.Sorted lexLt l → (∀ b ∈ l, a.1 < b.1) →
      List.Sorted lexLt
        (List.orderedInsert (fun x y => x.2.length ≤ y.2.length) a l)
  | [], _, _ => by simp [List.orderedInsert]
  | b :: t, hs, ha => by
    by_cases h : a.2.length ≤ b.2.length
    · rw [List.orderedInsert, if_pos h]
      refine List.pairwise_cons.2 ⟨?_, hs⟩
      intro c hc
      have hlen : a.2.length ≤ c.2.length := by
        rcases List.mem_cons.1 hc with rfl | hc2
        · exact h
        · exact h.trans (lexLt_len_le ((List.pairwise_cons.1 hs).1 c hc2))
      rcases lt_or_eq_of_le hlen with h2 | h2
      · exact Or.inl h2
      · exact Or.inr ⟨h2, ha c hc⟩
    · rw [List.orderedInsert, if_neg h]
      have ht : List.Sorted lexLt t := (List.pairwise_cons.1 hs).2
      have hins := orderedInsert_lex a ht
        (fun c hc => ha c (List.mem_cons_of_mem _ hc))
      refine List.pairwise_cons.2 ⟨?_, hins⟩
      intro c hc
      have hmem : c ∈ a :: t :=
        (List.perm_orderedInsert (fun x y => x.2.length ≤ y.2.length) a t).subset hc
      rcases List.mem_cons.1 hmem with rfl | hc2
      · exact Or.inl (lt_of_not_ge h)
      · exact (List.pairwise_cons.1 hs).1 c hc2

theorem insertionSort_lex :
    ∀ {l : InnerMap}, l.Pairwise (fun x y => x.1 < y.1) →
      List.Sorted lexLt
        (List.insertionSort (fun x y => x.2.length ≤ y.2.length) l)
  | [], _ => by simp
  | a :: t, hp => by
    rw [List.insertionSort]
    refine orderedInsert_lex a (insertionSort_lex (List.pairwise_cons.1 hp).2) ?_
    intro b hb
    have hbt : b ∈ t :=
      (List.perm_insertionSort (fun x y => x.2.length ≤ y.2.length) t).subset hb
    exact (List.pairwise_cons.1 hp).1 b hbt

/-- `finalize_inner` on a name-ascending inner map is pairwise descending:
strictly larger path-list counts first, ties in descending name order. -/
theorem finalize_inner_pairwise {inner : InnerMap}
    (h : inner.Pairwise (fun x y => x.1 < y.1)) :
    (finalize_inner inner).Pairwise (fun x y =>
      y.2.length < x.2.length ∨ (y.2.length = x.2.length ∧ y.1 < x.1)) := by
  rw [finalize_inner, List.pairwise_reverse]
  exact insertionSort_lex h

/-! ## Congruence lemmas for permuted walks -/

theorem orderedInsert_forall₂ {A : Type} {S : A → A → Prop}
    {r : A → A → Prop} [DecidableRel r]
    (hc : ∀ a a2 b b2, S a a2 → S b b2 → (r a b ↔ r a2 b2))
    {a1 a2 : A} (ha : S a1 a2) :
    ∀ {l1 l2 : List A}, List.Forall₂ S l1 l2 →
      List.Forall₂ S (List.orderedInsert r a1 l1) (List.orderedInsert r a2 l2) := by
  intro l1 l2 hl
  induction hl with
  | nil => exact List.Forall₂.cons ha List.Forall₂.nil
  | cons hb ht ih =>
    rename_i b1 b2 t1 t2
    by_cases h : r a1 b1
    · rw [List.orderedInsert, if_pos h, List.orderedInsert,
        if_pos ((hc _ _ _ _ ha hb).1 h)]
      exact List.Forall₂.cons ha (List.Forall₂.cons hb ht)
    · rw [List.orderedInsert, if_neg h, List.orderedInsert,
        if_neg (fun h2 => h ((hc _ _ _ _ ha hb).2 h2))]
      exact List.Forall₂.cons hb ih

theorem insertionSort_forall₂ {A : Type} {S : A → A → Prop}
    {r : A → A → Prop} [DecidableRel r]
    (hc : ∀ a a2 b b2, S a a2 → S b b2 → (r a b ↔ r a2 b2)) :
    ∀ {l1 l2 : List A}, List.Forall₂ S l1 l2 →
      List.Forall₂ S (List.insertionSort r l1) (List.insertionSort r l2) := by
  intro l1 l2 hl
  induction hl with
  | nil => exact List.Forall₂.nil
  | cons hb ht ih =>
    rw [List.insertionSort, List.insertionSort]
    exact orderedInsert_forall₂ hc hb ih

theorem unwrapAll_congr {A B : Type} {f : A → Option B} {S : A → A → Prop}
    (hf : ∀ a b, S a b → f a = f b) :
    ∀ {l1 l2 : List A}, List.Forall₂ S l1 l2 →
      unwrapAll f l1 = unwrapAll f l2 := by
  intro l1 l2 hl
  induction hl with
  | nil => rfl
  | cons hb ht ih =>
    rw [unwrapAll, unwrapAll, hf _ _ hb, ih]

theorem unwrapAll_isSome {A B : Type} {f : A → Option B} :
    ∀ {l : List A}, (∀ a ∈ l, (f a).isSome) → (unwrapAll f l).isSome
  | [], _ => by simp [unwrapAll]
  | a :: rest, h => by
    rw [unwrapAll]
    have h1 := h a (List.mem_cons_self _ _)
    have h2 := unwrapAll_isSome (fun b hb => h b (List.mem_cons_of_mem _ hb))
    cases hfa : f a with
    | none => rw [hfa] at h1; simp at h1
    | some b =>
      cases hrest : unwrapAll f rest with
      | none => rw [hrest] at h2; simp at h2
      | some bs => simp

theorem unwrapAll_some_id {A : Type} {f : A → Option A}
    (hf : ∀ a b, f a = some b → b = a) :
    ∀ {l bs : List A}, unwrapAll f l = some bs → bs = l
  | [], bs, h => by
    rw [unwrapAll] at h
    cases h
    rfl
  | a :: rest, bs, h => by
    rw [unwrapAll] at h
    cases hfa : f a with
    | none => rw [hfa] at h; cases h
    | some b =>
      rw [hfa] at h
      cases hrest : unwrapAll f rest with
      | none => rw [hrest] at h; cases h
      | some cs =>
        rw [hrest] at h
        cases h
        rw [hf a b hfa, unwrapAll_some_id hf hrest]

/-! ## The scan result up to walk order -/

theorem perm_nil_iff {A : Type} {l1 l2 : List A} (h : l1.Perm l2) :
    l1 = [] ↔ l2 = [] := by
  rw [← List.length_eq_zero, ← List.length_eq_zero, h.length_eq]

theorem scan_alookup_none_iff {walk : List (FsPath × ProcResult)} {m : Machine} :
    alookup m (scan walk) = none ↔ ∀ lib, pathsFor walk m lib = [] := by
  constructor
  · intro h lib
    rw [← statePaths_scan, statePaths, h]
    simp [alookup]
  · intro h
    cases hst : alookup m (scan walk) with
    | none => rfl
    | some inner =>
      obtain ⟨_, hi, hne, hbne⟩ := wf_scan walk
      have hmem : (m, inner) ∈ scan walk := alookup_mem hst
      obtain ⟨q, hq⟩ := List.exists_mem_of_ne_nil inner (hne (m, inner) hmem)
      obtain ⟨ql, qps⟩ := q
      have hqs : alookup ql inner = some qps :=
        alookup_of_mem_nodup hq (sortedKeys_nodup (hi (m, inner) hmem))
      have hps : qps = [] := by
        have hsp : statePaths (scan walk) m ql = qps := by
          rw [statePaths, hst, Option.getD_some, hqs, Option.getD_some]
        rw [← hsp, statePaths_scan, h ql]
      exact absurd hps (hbne (m, inner) hmem (ql, qps) hq)

theorem scan_inner_alookup_none_iff {walk : List (FsPath × ProcResult)}
    {m : Machine} {inner : InnerMap}
    (hst : alookup m (scan walk) = some inner) {lib : Lib} :
    alookup lib inner = none ↔ pathsFor walk m lib = [] := by
  constructor
  · intro h
    rw [← statePaths_scan, statePaths, hst, Option.getD_some, h]
    rfl
  · intro h
    cases hl : alookup lib inner with
    | none => rfl
    | some ps =>
      obtain ⟨_, _, _, hbne⟩ := wf_scan walk
      have hmem := alookup_mem hst
      have hpmem := alookup_mem hl
      have hps : ps = [] := by
        have hsp : statePaths (scan walk) m lib = ps := by
          rw [statePaths, hst, Option.getD_some, hl, Option.getD_some]
        rw [← hsp, statePaths_scan, h]
      exact absurd hps (hbne (m, inner) hmem (lib, ps) hpmem)

theorem keys_eq_of_sorted_mem_iff {K V : Type} [LinearOrder K]
    {l1 l2 : List (K × V)} (h1 : SortedKeys l1) (h2 : SortedKeys l2)
    (hmem : ∀ k, k ∈ l1.map Prod.fst ↔ k ∈ l2.map Prod.fst) :
    l1.map Prod.fst = l2.map Prod.fst := by
  haveI : IsAntisymm K (fun a b : K => a < b) :=
    ⟨fun a b hab hba => (lt_asymm hab hba).elim⟩
  have hsort1 : List.Sorted (fun a b : K => a < b) (l1.map Prod.fst) :=
    List.pairwise_map.2 h1
  have hsort2 : List.Sorted (fun a b : K => a < b) (l2.map Prod.fst) :=
    List.pairwise_map.2 h2
  exact List.eq_of_perm_of_sorted
    ((List.perm_ext_iff_of_nodup (sortedKeys_nodup h1) (sortedKeys_nodup h2)).2
      hmem) hsort1 hsort2

/-- Zip two association lists with equal key sequences into an entrywise
relation derived from their lookups. -/
theorem forall₂_of_keys_eq {K V : Type} [LinearOrder K] {R : V → V → Prop} :
    ∀ {l1 l2 : List (K × V)}, l1.map Prod.fst = l2.map Prod.fst →
      (l1.map Prod.fst).Nodup →
      (∀ k v1 v2, alookup k l1 = some v1 → alookup k l2 = some v2 → R v1 v2) →
      List.Forall₂ (fun a b => a.1 = b.1 ∧ R a.2 b.2) l1 l2
  | [], [], _, _, _ => List.Forall₂.nil
  | [], (k2, v2) :: t2, hk, _, _ => by simp at hk
  | (k1, v1) :: t1, [], hk, _, _ => by simp at hk
  | (k1, v1) :: t1, (k2, v2) :: t2, hk, hn, hR => by
    simp only [List.map_cons, List.cons.injEq] at hk
    obtain ⟨hk12, hkt⟩ := hk
    subst hk12
    have hv : R v1 v2 :=
      hR k1 v1 v2 (by simp [alookup]) (by simp [alookup])
    refine List.Forall₂.cons ⟨rfl, hv⟩ ?_
    rw [List.map_cons, List.nodup_cons] at hn
    refine forall₂_of_keys_eq hkt hn.2 ?_
    intro k u1 u2 hu1 hu2
    have hne : k1 ≠ k := by
      rintro rfl
      exact hn.1 (List.mem_map.2 ⟨(k1, u1), alookup_mem hu1, rfl⟩)
    refine hR k u1 u2 ?_ ?_
    · rw [alookup, if_neg hne]; exact hu1
    · rw [alookup, if_neg hne]; exact hu2

theorem mem_keys_iff_not_forall_nil {walk : List (FsPath × ProcResult)}
    {m : Machine} :
    m ∈ (scan walk).map Prod.fst ↔ ¬ (∀ lib, pathsFor walk m lib = []) := by
  rw [← @scan_alookup_none_iff walk m]
  constructor
  · intro hm hnone
    rw [alookup_eq_none_iff] at hnone
    exact hnone hm
  · intro h
    by_contra hm
    exact h (alookup_eq_none_iff.2 hm)

/-- Scans of walks that are permutations of each other agree entrywise:
same machines in the same order, same library names per machine in the same
order, and per-bucket path lists that are permutations. -/
theorem scan_forall₂ {w1 w2 : List (FsPath × ProcResult)} (hp : w1.Perm w2) :
    List.Forall₂ (fun a b => a.1 = b.1 ∧
        List.Forall₂ (fun x y => x.1 = y.1 ∧ x.2.Perm y.2) a.2 b.2)
      (scan w1) (scan w2) := by
  obtain ⟨hs1, hi1, _, _⟩ := wf_scan w1
  obtain ⟨hs2, hi2, _, _⟩ := wf_scan w2
  have hpaths : ∀ m lib, (pathsFor w1 m lib).Perm (pathsFor w2 m lib) :=
    fun m lib => List.Perm.flatMap_right _ hp
  have houter : (scan w1).map Prod.fst = (scan w2).map Prod.fst := by
    refine keys_eq_of_sorted_mem_iff hs1 hs2 ?_
    intro m
    rw [mem_keys_iff_not_forall_nil, mem_keys_iff_not_forall_nil]
    refine not_congr (forall_congr' ?_)
    intro lib
    exact perm_nil_iff (hpaths m lib)
  refine forall₂_of_keys_eq houter (sortedKeys_nodup hs1) ?_
  intro m i1 i2 h1 h2
  refine forall₂_of_keys_eq ?_
    (sortedKeys_nodup (hi1 (m, i1) (alookup_mem h1))) ?_
  · refine keys_eq_of_sorted_mem_iff (hi1 (m, i1) (alookup_mem h1))
      (hi2 (m, i2) (alookup_mem h2)) ?_
    intro lib
    constructor
    · intro hmem
      by_contra hmem2
      rw [← alookup_eq_none_iff, scan_inner_alookup_none_iff h2,
        ← perm_nil_iff (hpaths m lib), ← scan_inner_alookup_none_iff h1,
        alookup_eq_none_iff] at hmem2
      exact hmem2 hmem
    · intro hmem
      by_contra hmem2
      rw [← alookup_eq_none_iff, scan_inner_alookup_none_iff h1,
        perm_nil_iff (hpaths m lib), ← scan_inner_alookup_none_iff h2,
        alookup_eq_none_iff] at hmem2
      exact hmem2 hmem
  · intro lib ps1 ps2 hl1 hl2
    have e1 : pathsFor w1 m lib = ps1 := by
      rw [← statePaths_scan, statePaths, h1, Option.getD_some, hl1,
        Option.getD_some]
    have e2 : pathsFor w2 m lib = ps2 := by
      rw [← statePaths_scan, statePaths, h2, Option.getD_some, hl2,
        Option.getD_some]
    rw [← e1, ← e2]
    exact hpaths m lib

theorem emit_entry_congr {a b : Lib × List FsPath} (hfst : a.1 = b.1)
    (hperm : a.2.Perm b.2) : emit_entry a = emit_entry b := by
  have hsort : List.insertionSort path_le a.2 =
      List.insertionSort path_le b.2 := by
    refine List.eq_of_perm_of_sorted ?_ (List.sorted_insertionSort _ _)
      (List.sorted_insertionSort _ _)
    exact (List.perm_insertionSort _ _).trans
      (hperm.trans (List.perm_insertionSort _ _).symm)
  rw [emit_entry, emit_entry, hsort, hfst, hperm.length_eq]

theorem emit_inner_congr {i1 i2 : InnerMap}
    (h : List.Forall₂ (fun x y => x.1 = y.1 ∧ x.2.Perm y.2) i1 i2) :
    emit_inner i1 = emit_inner i2 := by
  rw [emit_inner, emit_inner]
  have hfin : List.Forall₂ (fun x y => x.1 = y.1 ∧ x.2.Perm y.2)
      (finalize_inner i1) (finalize_inner i2) := by
    rw [finalize_inner, finalize_inner]
    refine List.forall₂_reverse_iff.2 ?_
    refine insertionSort_forall₂ ?_ h
    intro x x2 y y2 hx hy
    rw [hx.2.length_eq, hy.2.length_eq]
  rw [unwrapAll_congr (fun x y hxy => emit_entry_congr hxy.1 hxy.2) hfin]

theorem emit_congr {st1 st2 : ScanState}
    (h : List.Forall₂ (fun a b => a.1 = b.1 ∧
        List.Forall₂ (fun x y => x.1 = y.1 ∧ x.2.Perm y.2) a.2 b.2) st1 st2) :
    emit st1 = emit st2 := by
  rw [emit, emit]
  refine unwrapAll_congr ?_ h
  intro a b hab
  rw [hab.1, emit_inner_congr hab.2]

/-! ## Dependency-extraction lemmas -/

theorem get_libraries_aux (strtab : List Nat) :
    ∀ (dyns : List Dyn) (acc : List (List Nat)),
      dyns.foldl
        (fun needed d =>
          if d.d_tag = DT_NEEDED then
            match get_at strtab d.d_val with
            | some lib => needed ++ [lib]
            | none => needed
          else needed) acc =
      acc ++ dyns.filterMap
        (fun d => if d.d_tag = DT_NEEDED then get_at strtab d.d_val else none)
  | [], acc => by simp
  | d :: rest, acc => by
    rw [List.foldl_cons, get_libraries_aux strtab rest, List.filterMap_cons]
    by_cases h : d.d_tag = DT_NEEDED
    · cases hg : get_at strtab d.d_val with
      | some lib => simp [h, hg]
      | none => simp [h, hg]
    · simp [h]

/-- `get_libraries` keeps, in order, one name per DT_NEEDED entry whose
offset resolves; other tags and unresolvable offsets contribute nothing. -/
theorem get_libraries_eq_filterMap (dyns : List Dyn) (strtab : List Nat) :
    get_libraries dyns strtab =
      dyns.filterMap
        (fun d => if d.d_tag = DT_NEEDED then get_at strtab d.d_val else none) := by
  rw [get_libraries, get_libraries_aux]
  rfl

theorem process_one_ok {file : List Nat} {dyns : List Dyn} {mach : Nat}
    {addr sz : Nat} {table : List Nat}
    (h1 : (dyns.find? (fun t => t.d_tag == DT_STRTAB)).map Dyn.d_val = some addr)
    (h2 : (dyns.find? (fun t => t.d_tag == DT_STRSZ)).map Dyn.d_val = some sz)
    (h3 : strtab_parse file addr sz = Except.ok table) :
    process_one file ⟨mach, some dyns⟩ =
      some (Except.ok (mach, get_libraries dyns table)) := by
  simp only [process_one, h1, h2, h3]

theorem strtab_parse_ok {bytes : List Nat} {offset len : Nat}
    {table : List Nat} (h : strtab_parse bytes offset len = Except.ok table) :
    table = (bytes.drop offset).take len ∧ offset + len ≤ bytes.length := by
  simp only [strtab_parse] at h
  split_ifs at h with h1 h2
  · cases h
    exact ⟨rfl, le_of_not_gt h1⟩

theorem get_at_none_of_gt {table : List Nat} {o : Nat}
    (h : table.length < o) : get_at table o = none := by
  rw [get_at, if_neg (by omega), if_neg]
  rintro ⟨h1, -, -⟩
  omega

theorem get_at_none_at_len {table : List Nat}
    (h : table.getLast? = some 0 ∨ table = []) :
    get_at table table.length = none := by
  rw [get_at, if_neg (lt_irrefl _), if_neg]
  rintro ⟨-, h2, h3⟩
  rcases h with h | h
  · exact h3 h
  · exact h2 h

theorem get_at_infix {table : List Nat} {o : Nat} {s : List Nat}
    (h : get_at table o = some s) : s.IsInfix table := by
  rw [get_at] at h
  split_ifs at h with h1 h2 h3
  · cases h
    exact ((List.takeWhile_prefix _).isInfix).trans (List.drop_suffix o table).isInfix
  · cases h
    exact List.nil_infix

/-! ## Contribution counting (duplicate paths) -/

theorem mem_entry_paths {m : Machine} {lib : Lib} {e : FsPath × ProcResult}
    {q : FsPath} (h : q ∈ entry_paths m lib e) : q = e.1 := by
  obtain ⟨p, res⟩ := e
  cases res with
  | ok pr =>
    obtain ⟨m0, libs⟩ := pr
    simp only [entry_paths] at h
    split_ifs at h with h1
    · obtain ⟨_, _, rfl⟩ := List.mem_map.1 h
      rfl
    · simp at h
  | error err => simp [entry_paths] at h

theorem mem_pathsFor {walk : List (FsPath × ProcResult)} {m : Machine}
    {lib : Lib} {q : FsPath} (h : q ∈ pathsFor walk m lib) :
    q ∈ walk.map Prod.fst := by
  rw [pathsFor] at h
  obtain ⟨e, he, hq⟩ := List.mem_flatMap.1 h
  exact List.mem_map.2 ⟨e, he, (mem_entry_paths hq).symm⟩

theorem count_map_const {A B : Type} [BEq B] [LawfulBEq B] (p : B) :
    ∀ l : List A, List.count p (l.map (fun _ => p)) = l.length
  | [] => rfl
  | a :: t => by simp [List.count_cons, count_map_const p t]

theorem length_filter_eq_count {A : Type} [BEq A] (a : A) :
    ∀ l : List A, (l.filter (fun x => x == a)).length = l.count a
  | [] => rfl
  | b :: t => by
    cases h : b == a
    · simp [List.filter_cons, List.count_cons, h, length_filter_eq_count a t]
    · simp [List.filter_cons, List.count_cons, h, length_filter_eq_count a t]

theorem count_entry_paths_self {m : Machine} {lib : Lib} {p : FsPath}
    {mach : Machine} {libs : List Lib} :
    List.count p (entry_paths m lib (p, Except.ok (mach, libs))) =
      if mach = m then libs.count lib else 0 := by
  simp only [entry_paths]
  split_ifs with h1
  · rw [count_map_const, length_filter_eq_count]
  · simp

theorem count_pathsFor {m : Machine} {lib : Lib} {p : FsPath}
    {mach : Machine} {libs : List Lib} :
    ∀ {walk : List (FsPath × ProcResult)}, (walk.map Prod.fst).Nodup →
      (p, Except.ok (mach, libs)) ∈ walk →
      List.count p (pathsFor walk m lib) =
        if mach = m then libs.count lib else 0
  | [], _, hmem => by simp at hmem
  | e :: rest, hnd, hmem => by
    rw [List.map_cons, List.nodup_cons] at hnd
    rw [pathsFor, List.flatMap_cons, List.count_append]
    rcases List.mem_cons.1 hmem with rfl | hmem2
    · have hzero : List.count p (pathsFor rest m lib) = 0 := by
        rw [List.count_eq_zero]
        intro hq
        exact hnd.1 (mem_pathsFor hq)
      rw [pathsFor] at hzero
      rw [hzero, count_entry_paths_self, Nat.add_zero]
    · have hne : e.1 ≠ p := by
        rintro rfl
        exact hnd.1 (List.mem_map.2 ⟨_, hmem2, rfl⟩)
      have hzero : List.count p (entry_paths m lib e) = 0 := by
        rw [List.count_eq_zero]
        intro hq
        exact hne (mem_entry_paths hq).symm
      rw [hzero, Nat.zero_add]
      exact count_pathsFor hnd.2 hmem2

/-! ## Emission lemmas -/

theorem path_to_str_id {a b : FsPath} (h : path_to_str a = some b) : b = a := by
  rw [path_to_str] at h
  split_ifs at h
  cases h
  rfl

theorem emit_entry_some {e : Lib × List FsPath} {lines : List Line}
    (h : emit_entry e = some lines) :
    ∃ ps, lines = Line.header e.1 e.2.length :: ps.map Line.dep ∧
      List.Sorted path_le ps ∧ ps.Perm e.2 := by
  rw [emit_entry] at h
  cases hu : unwrapAll path_to_str
      (List.insertionSort path_le e.2) with
  | none => rw [hu] at h; cases h
  | some ps =>
    rw [hu] at h
    cases h
    have hid : ps = List.insertionSort path_le e.2 :=
      unwrapAll_some_id (fun a b hab => path_to_str_id hab) hu
    subst hid
    exact ⟨_, rfl, List.sorted_insertionSort _ _, List.perm_insertionSort _ _⟩

theorem scan_paths_from_walk {walk : List (FsPath × ProcResult)} {m : Machine}
    {inner : InnerMap} {lib : Lib} {ps : List FsPath} {p : FsPath}
    (h1 : (m, inner) ∈ scan walk) (h2 : (lib, ps) ∈ inner) (hp : p ∈ ps) :
    p ∈ walk.map Prod.fst := by
  obtain ⟨hs, hi, _, _⟩ := wf_scan walk
  have ha1 : alookup m (scan walk) = some inner :=
    alookup_of_mem_nodup h1 (sortedKeys_nodup hs)
  have ha2 : alookup lib inner = some ps :=
    alookup_of_mem_nodup h2 (sortedKeys_nodup (hi (m, inner) h1))
  have hps : pathsFor walk m lib = ps := by
    rw [← statePaths_scan, statePaths, ha1, Option.getD_some, ha2,
      Option.getD_some]
  rw [← hps] at hp
  exact mem_pathsFor hp

theorem emit_isSome_of_valid {walk : List (FsPath × ProcResult)}
    (hv : ∀ e ∈ walk, validUtf8 e.1 = true) :
    (emit (scan walk)).isSome = true := by
  rw [emit]
  refine unwrapAll_isSome ?_
  intro me hme
  obtain ⟨m, inner⟩ := me
  have hinner : (emit_inner inner).isSome = true := by
    rw [emit_inner]
    have hu : (unwrapAll emit_entry (finalize_inner inner)).isSome = true := by
      refine unwrapAll_isSome ?_
      intro q hq
      obtain ⟨lib, ps⟩ := q
      have hqmem : (lib, ps) ∈ inner := by
        rw [finalize_inner] at hq
        exact (List.perm_insertionSort _ _).subset (List.mem_reverse.1 hq)
      rw [emit_entry]
      have hps : (unwrapAll path_to_str
          (List.insertionSort path_le ps)).isSome = true := by
        refine unwrapAll_isSome ?_
        intro p hp
        have hpq : p ∈ ps := (List.perm_insertionSort _ _).subset hp
        have hpw : p ∈ walk.map Prod.fst :=
          scan_paths_from_walk hme hqmem hpq
        obtain ⟨e, he, rfl⟩ := List.mem_map.1 hpw
        rw [path_to_str, if_pos (hv e he)]
        rfl
      cases hups : unwrapAll path_to_str
          (List.insertionSort path_le ps) with
      | none => rw [hups] at hps; cases hps
      | some ps2 => simp
    cases hue : unwrapAll emit_entry (finalize_inner inner) with
    | none => rw [hue] at hu; cases hu
    | some ls => simp
  cases hei : emit_inner inner with
  | none => rw [hei] at hinner; cases hinner
  | some ls => simp

theorem process_one_ok_inv {file : List Nat} {elf : Elf} {m : Nat}
    {libs : List (List Nat)}
    (h : process_one file elf = some (Except.ok (m, libs))) :
    ∃ dyns addr sz table, elf.dynamic = some dyns ∧
      (dyns.find? (fun t => t.d_tag == DT_STRTAB)).map Dyn.d_val = some addr ∧
      (dyns.find? (fun t => t.d_tag == DT_STRSZ)).map Dyn.d_val = some sz ∧
      strtab_parse file addr sz = Except.ok table ∧
      m = elf.e_machine ∧ libs = get_libraries dyns table := by
  obtain ⟨mach, dyn⟩ := elf
  cases dyn with
  | none => simp [process_one] at h
  | some dyns =>
    simp only [process_one] at h
    cases h1 : (dyns.find? (fun t => t.d_tag == DT_STRTAB)).map Dyn.d_val with
    | none => simp [h1] at h
    | some addr =>
      cases h2 : (dyns.find? (fun t => t.d_tag == DT_STRSZ)).map Dyn.d_val with
      | none => simp [h1, h2] at h
      | some sz =>
        cases h3 : strtab_parse file addr sz with
        | error err => simp [h1, h2, h3] at h
        | ok table =>
          simp only [h1, h2, h3, Option.some.injEq, Except.ok.injEq,
            Prod.mk.injEq] at h
          exact ⟨dyns, addr, sz, table, rfl, h1, h2, h3, h.1.symm, h.2.symm⟩

/-! ## Claims -/

/-- Claim C1, counterexample: scanning a binary whose dynamic table has a
DT_NEEDED offset 9 with declared string-table size 2 (offset well past the
table) does NOT fail with StrtableBad: `process_one` succeeds and silently
drops the entry.  The conjuncts pin the premise: the DT_NEEDED entry is in
the table, the declared size is 2, and 2 is at most 9. -/
theorem c1_counterexample :
    (⟨DT_NEEDED, 9⟩ : Dyn) ∈
        [(⟨DT_STRTAB, 0⟩ : Dyn), ⟨DT_STRSZ, 2⟩, ⟨DT_NEEDED, 9⟩] ∧
    (([(⟨DT_STRTAB, 0⟩ : Dyn), ⟨DT_STRSZ, 2⟩, ⟨DT_NEEDED, 9⟩].find?
        (fun t => t.d_tag == DT_STRSZ)).map Dyn.d_val = some 2 ∧ 2 ≤ 9) ∧
    process_one [5, 0] ⟨3, some [⟨DT_STRTAB, 0⟩, ⟨DT_STRSZ, 2⟩, ⟨DT_NEEDED, 9⟩]⟩ =
      some (Except.ok (3, [])) :=
  ⟨by decide, ⟨by decide, by decide⟩, by decide⟩

/-- Claim C1 amended: a string-table offset strictly beyond the table, or
equal to the table size when the table is empty or NUL-terminated, never
resolves — the dependency entry is silently omitted rather than the binary
failing with StrtableBad (offset = size of a non-NUL-terminated table
resolves to the empty name); and every library name returned by a
successful `process_one` consists solely of bytes inside the decoded
string-table region `file[addr .. addr+size]`. -/
theorem c1_offset_bounds :
    (∀ (table : List Nat) (o : Nat), table.length < o → get_at table o = none) ∧
    (∀ table : List Nat, table.getLast? = some 0 ∨ table = [] →
      get_at table table.length = none) ∧
    (∀ (file : List Nat) (elf : Elf) (m : Nat) (libs : List (List Nat))
      (lib : List Nat),
      process_one file elf = some (Except.ok (m, libs)) → lib ∈ libs →
      ∃ dyns addr sz, elf.dynamic = some dyns ∧
        (dyns.find? (fun t => t.d_tag == DT_STRTAB)).map Dyn.d_val = some addr ∧
        (dyns.find? (fun t => t.d_tag == DT_STRSZ)).map Dyn.d_val = some sz ∧
        lib.IsInfix ((file.drop addr).take sz)) := by
  refine ⟨fun table o h => get_at_none_of_gt h,
    fun table h => get_at_none_at_len h, ?_⟩
  intro file elf m libs lib h hmem
  obtain ⟨dyns, addr, sz, table, hdyn, h1, h2, h3, _, hlibs⟩ :=
    process_one_ok_inv h
  refine ⟨dyns, addr, sz, hdyn, h1, h2, ?_⟩
  rw [hlibs, get_libraries_eq_filterMap] at hmem
  obtain ⟨d, _, hres⟩ := List.mem_filterMap.1 hmem
  by_cases hd : d.d_tag = DT_NEEDED
  · rw [if_pos hd] at hres
    have := get_at_infix hres
    rwa [(strtab_parse_ok h3).1] at this
  · rw [if_neg hd] at hres
    cases hres

/-- Witness for C1: instantiates the out-of-range clause at table [5, 0]
and offset 9, and the byte-provenance clause at a concrete binary. -/
theorem c1_offset_bounds_witness :
    (([5, 0] : List Nat).length < 9 ∧ get_at [5, 0] 9 = none) ∧
    (process_one [97, 0] ⟨3, some [⟨DT_STRTAB, 0⟩, ⟨DT_STRSZ, 2⟩, ⟨DT_NEEDED, 0⟩]⟩ =
        some (Except.ok (3, [[97]])) ∧ ([97] : List Nat) ∈ [[97]] ∧
      ∃ dyns addr sz,
        (⟨3, some [⟨DT_STRTAB, 0⟩, ⟨DT_STRSZ, 2⟩, ⟨DT_NEEDED, 0⟩]⟩ : Elf).dynamic =
          some dyns ∧
        (dyns.find? (fun t => t.d_tag == DT_STRTAB)).map Dyn.d_val = some addr ∧
        (dyns.find? (fun t => t.d_tag == DT_STRSZ)).map Dyn.d_val = some sz ∧
        ([97] : List Nat).IsInfix ((([97, 0] : List Nat).drop addr).take sz)) :=
  ⟨⟨by decide, c1_offset_bounds.1 [5, 0] 9 (by decide)⟩,
   by decide, by decide,
   c1_offset_bounds.2.2 [97, 0] ⟨3, some [⟨DT_STRTAB, 0⟩, ⟨DT_STRSZ, 2⟩, ⟨DT_NEEDED, 0⟩]⟩
     3 [[97]] [97] (by decide) (by decide)⟩

/-- Claim C2: the code panics (modelled as `none`) via `.unwrap()` when the
dynamic section lacks a DT_STRTAB or DT_STRSZ tag, instead of returning the
StrtableBad error the spec prescribes; errors that ARE returned are dropped
by the scan loop without aborting (scan_step on an error is the identity). -/
theorem c2_missing_tags_panic :
    process_one [] ⟨7, some [⟨DT_NEEDED, 0⟩]⟩ = none ∧
    process_one [] ⟨7, some [⟨DT_STRTAB, 0⟩, ⟨DT_NEEDED, 0⟩]⟩ = none ∧
    ∀ (st : ScanState) (p : FsPath) (err : ErrorKind),
      scan_step st (p, Except.error err) = st :=
  ⟨by decide, by decide, fun st p err => rfl⟩

/-- Claim C3: the DT_STRTAB value is used directly as a raw file byte
offset with a zero base — `strtab_parse` decodes `file[addr .. addr+size]`
with no program-header address translation; at a concrete binary the table
is read straight from file offset 2 (= the d_val). -/
theorem c3_raw_offset_no_translation :
    (∀ (file : List Nat) (addr sz : Nat) (t : List Nat),
      strtab_parse file addr sz = Except.ok t → t = (file.drop addr).take sz) ∧
    process_one [9, 9, 97, 0]
        ⟨5, some [⟨DT_STRTAB, 2⟩, ⟨DT_STRSZ, 2⟩, ⟨DT_NEEDED, 0⟩]⟩ =
      some (Except.ok (5, [[97]])) :=
  ⟨fun file addr sz t h => (strtab_parse_ok h).1, by decide⟩

/-- Witness for C3: the raw-offset clause at a concrete parse. -/
theorem c3_raw_offset_witness :
    strtab_parse [9, 9, 97, 0] 2 2 = Except.ok [97, 0] ∧
    ([97, 0] : List Nat) = (([9, 9, 97, 0] : List Nat).drop 2).take 2 :=
  ⟨by decide, c3_raw_offset_no_translation.1 [9, 9, 97, 0] 2 2 [97, 0] (by decide)⟩

/-- Claim C4, counterexample: a reachable scan state with two libraries of
equal dependent count; the finalized order puts the lexicographically
LARGER name first, violating the claimed ascending tie-break.  The first
conjunct shows the state is reachable, the last that the claimed pairwise
order (ties: smaller name first) fails on the finalized list. -/
theorem c4_counterexample :
    scan [([1], Except.ok (7, [[1]])), ([2], Except.ok (7, [[0]]))] =
      [(7, [([0], [[2]]), ([1], [[1]])])] ∧
    finalize_inner [([0], [[2]]), ([1], [[1]])] =
      [([1], [[1]]), ([0], [[2]])] ∧
    ¬ List.Pairwise (fun a b => b.2.length < a.2.length ∨
        (b.2.length = a.2.length ∧ a.1 < b.1))
      (finalize_inner [([0], [[2]]), ([1], [[1]])]) :=
  ⟨by decide, by decide, by decide⟩

/-- Claim C4 amended: for every reachable scan state and architecture, the
finalized list is ordered by descending path-list length, and ties are
broken by library name DESCENDING (the stable ascending sort is reversed
whole, so equal-count libraries come out name-descending, not ascending). -/
theorem c4_sort_contract :
    ∀ (walk : List (FsPath × ProcResult)) (m : Machine) (inner : InnerMap),
      alookup m (scan walk) = some inner →
      List.Pairwise (fun a b => b.2.length < a.2.length ∨
        (b.2.length = a.2.length ∧ b.1 < a.1)) (finalize_inner inner) := by
  intro walk m inner h
  obtain ⟨_, hi, _, _⟩ := wf_scan walk
  exact finalize_inner_pairwise (hi (m, inner) (alookup_mem h))

/-- Witness for C4 at the two-library equal-count state. -/
theorem c4_sort_contract_witness :
    alookup 7 (scan [([1], Except.ok (7, [[1]])), ([2], Except.ok (7, [[0]]))]) =
      some [([0], [[2]]), ([1], [[1]])] ∧
    List.Pairwise (fun a b => b.2.length < a.2.length ∨
        (b.2.length = a.2.length ∧ b.1 < a.1))
      (finalize_inner [([0], [[2]]), ([1], [[1]])]) :=
  ⟨by decide,
   c4_sort_contract [([1], Except.ok (7, [[1]])), ([2], Except.ok (7, [[0]]))]
     7 [([0], [[2]]), ([1], [[1]])] (by decide)⟩

/-- Claim C5, counterexample: a binary with two DT_NEEDED entries, one of
which has an out-of-range offset, produces a one-element dependency list —
not one name per DT_NEEDED entry as claimed. -/
theorem c5_counterexample :
    ([(⟨DT_STRTAB, 0⟩ : Dyn), ⟨DT_STRSZ, 2⟩, ⟨DT_NEEDED, 0⟩,
        ⟨DT_NEEDED, 9⟩].filter (fun d => d.d_tag == DT_NEEDED)).length = 2 ∧
    process_one [97, 0]
        ⟨7, some [⟨DT_STRTAB, 0⟩, ⟨DT_STRSZ, 2⟩, ⟨DT_NEEDED, 0⟩, ⟨DT_NEEDED, 9⟩]⟩ =
      some (Except.ok (7, [[97]])) ∧
    ([[97]] : List (List Nat)).length = 1 :=
  ⟨by decide, by decide, by decide⟩

/-- Claim C5 amended: the extracted dependency list holds, in dynamic-table
order and with duplicates preserved, exactly one name per DT_NEEDED entry
WHOSE OFFSET RESOLVES in the string table; entries with other tags and
DT_NEEDED entries with unresolvable offsets contribute nothing. -/
theorem c5_needed_in_order :
    ∀ (file : List Nat) (dyns : List Dyn) (mach m : Nat)
      (libs : List (List Nat)) (addr sz : Nat) (table : List Nat),
      (dyns.find? (fun t => t.d_tag == DT_STRTAB)).map Dyn.d_val = some addr →
      (dyns.find? (fun t => t.d_tag == DT_STRSZ)).map Dyn.d_val = some sz →
      strtab_parse file addr sz = Except.ok table →
      process_one file ⟨mach, some dyns⟩ = some (Except.ok (m, libs)) →
      m = mach ∧
        libs = dyns.filterMap
          (fun d => if d.d_tag = DT_NEEDED then get_at table d.d_val else none) := by
  intro file dyns mach m libs addr sz table h1 h2 h3 h4
  rw [process_one_ok h1 h2 h3] at h4
  simp only [Option.some.injEq, Except.ok.injEq, Prod.mk.injEq] at h4
  exact ⟨h4.1.symm, by rw [← h4.2, get_libraries_eq_filterMap]⟩

/-- Witness for C5: a binary with a duplicated DT_NEEDED entry; the
extracted list keeps both occurrences in order. -/
theorem c5_needed_in_order_witness :
    (strtab_parse [97, 0] 0 2 = Except.ok [97, 0] ∧
      process_one [97, 0]
          ⟨7, some [⟨DT_STRTAB, 0⟩, ⟨DT_STRSZ, 2⟩, ⟨DT_NEEDED, 0⟩,
            ⟨DT_NEEDED, 0⟩]⟩ =
        some (Except.ok (7, [[97], [97]]))) ∧
    (7 = 7 ∧
      ([[97], [97]] : List (List Nat)) =
        ([(⟨DT_STRTAB, 0⟩ : Dyn), ⟨DT_STRSZ, 2⟩, ⟨DT_NEEDED, 0⟩,
          ⟨DT_NEEDED, 0⟩].filterMap
            (fun d => if d.d_tag = DT_NEEDED then get_at [97, 0] d.d_val
              else none))) :=
  ⟨⟨by decide, by decide⟩,
   c5_needed_in_order [97, 0]
     [⟨DT_STRTAB, 0⟩, ⟨DT_STRSZ, 2⟩, ⟨DT_NEEDED, 0⟩, ⟨DT_NEEDED, 0⟩]
     7 7 [[97], [97]] 0 2 [97, 0] (by decide) (by decide) (by decide)
     (by decide)⟩

/-- Claim C6: for each emitted (soname, exes) entry the dependent paths are
printed sorted lexicographically ascending, and are exactly the bucket
content up to order; moreover the sorted bucket is identical for every
accumulation (discovery) order of the same walked set. -/
theorem c6_path_ordering :
    (∀ (e : Lib × List FsPath) (lines : List Line),
      emit_entry e = some lines →
      ∃ ps, lines = Line.header e.1 e.2.length :: ps.map Line.dep ∧
        List.Sorted path_le ps ∧ ps.Perm e.2) ∧
    (∀ (w1 w2 : List (FsPath × ProcResult)) (m : Machine) (lib : Lib),
      w1.Perm w2 →
      List.insertionSort path_le
          (statePaths (scan w1) m lib) =
        List.insertionSort path_le
          (statePaths (scan w2) m lib)) := by
  constructor
  · exact fun e lines h => emit_entry_some h
  · intro w1 w2 m lib hp
    refine List.eq_of_perm_of_sorted ?_ (List.sorted_insertionSort _ _)
      (List.sorted_insertionSort _ _)
    refine (List.perm_insertionSort _ _).trans
      (List.Perm.trans ?_ (List.perm_insertionSort _ _).symm)
    rw [statePaths_scan, statePaths_scan]
    exact List.Perm.flatMap_right _ hp

/-- Witness for C6: a concrete entry with paths discovered out of order,
and two opposite-order walks with equal sorted buckets. -/
theorem c6_path_ordering_witness :
    (emit_entry ([97], [[2], [1]]) =
        some [Line.header [97] 2, Line.dep [1], Line.dep [2]] ∧
      ∃ ps, ([Line.header [97] 2, Line.dep [1], Line.dep [2]] : List Line) =
          Line.header [97] 2 :: ps.map Line.dep ∧
        List.Sorted path_le ps ∧ ps.Perm [[2], [1]]) ∧
    (([([2], Except.ok (7, [[97]])), ([1], Except.ok (7, [[97]]))] :
        List (FsPath × ProcResult)).Perm
        [([1], Except.ok (7, [[97]])), ([2], Except.ok (7, [[97]]))] ∧
      List.insertionSort path_le
          (statePaths
            (scan [([2], Except.ok (7, [[97]])), ([1], Except.ok (7, [[97]]))])
            7 [97]) =
        List.insertionSort path_le
          (statePaths
            (scan [([1], Except.ok (7, [[97]])), ([2], Except.ok (7, [[97]]))])
            7 [97])) :=
  ⟨⟨by decide,
    c6_path_ordering.1 ([97], [[2], [1]])
      [Line.header [97] 2, Line.dep [1], Line.dep [2]] (by decide)⟩,
   ⟨by decide,
    c6_path_ordering.2 [([2], Except.ok (7, [[97]])), ([1], Except.ok (7, [[97]]))]
      [([1], Except.ok (7, [[97]])), ([2], Except.ok (7, [[97]]))] 7 [97]
      (by decide)⟩⟩

/-- Claim C7, counterexample: one binary listing the same dependency twice
puts its path twice in the (architecture, soname) bucket — a reachable
state whose path list has a duplicate. -/
theorem c7_counterexample :
    statePaths (scan [([1], Except.ok (7, [[97], [97]]))]) 7 [97] = [[1], [1]] ∧
    ¬ (statePaths (scan [([1], Except.ok (7, [[97], [97]]))]) 7 [97]).Nodup :=
  ⟨by decide, by decide⟩

/-- Claim C7 amended: for a walk with distinct paths, the multiplicity of a
path in a bucket equals the number of occurrences of that library in the
dependency list the binary at that path contributed (0 when the machine
differs or the binary erred): duplicates appear exactly when a binary lists
the same dependency more than once, and are NOT deduplicated. -/
theorem c7_bucket_multiplicity :
    ∀ (walk : List (FsPath × ProcResult)) (m : Machine) (lib : Lib)
      (p : FsPath) (mach : Machine) (libs : List Lib),
      (walk.map Prod.fst).Nodup →
      (p, Except.ok (mach, libs)) ∈ walk →
      List.count p (statePaths (scan walk) m lib) =
        if mach = m then libs.count lib else 0 := by
  intro walk m lib p mach libs hnd hmem
  rw [statePaths_scan]
  exact count_pathsFor hnd hmem

/-- Witness for C7 at the duplicate-listing binary. -/
theorem c7_bucket_multiplicity_witness :
    ((([([1], Except.ok (7, [[97], [97]]))] :
        List (FsPath × ProcResult)).map Prod.fst).Nodup ∧
      (([1], Except.ok (7, [[97], [97]])) : FsPath × ProcResult) ∈
        [([1], Except.ok (7, [[97], [97]]))]) ∧
    List.count [1]
        (statePaths (scan [([1], Except.ok (7, [[97], [97]]))]) 7 [97]) =
      if 7 = 7 then ([[97], [97]] : List Lib).count [97] else 0 :=
  ⟨⟨by decide, by decide⟩,
   c7_bucket_multiplicity [([1], Except.ok (7, [[97], [97]]))] 7 [97] [1] 7
     [[97], [97]] (by decide) (by decide)⟩

/-- Claim C8, counterexample: mode 8 = 0o010 (group-execute only) has an
execute permission bit set (8 AND 0o111 = 8, nonzero) yet the walk filter
rejects the regular file: the code tests only the owner bit 0o100. -/
theorem c8_counterexample :
    (8 : Nat) &&& 73 ≠ 0 ∧ is_candidate true 8 = false :=
  ⟨by decide, by decide⟩

/-- Claim C8 amended: the candidate set is exactly the regular files whose
OWNER-execute bit (bit 6, 0o100) is set; group-only or other-only
executable files are not candidates. -/
theorem c8_owner_exec_only :
    ∀ (f : Bool) (mode : Nat),
      (is_candidate f mode = true → f = true ∧ mode.testBit 6 = true) ∧
      (f = true → mode.testBit 6 = true → is_candidate f mode = true) := by
  intro f mode
  have hbit : (mode &&& 64 ≠ 0) ↔ mode.testBit 6 = true := by
    have h64 : (64 : Nat) = 2 ^ 6 := by norm_num
    rw [h64, Nat.and_two_pow]
    cases h : mode.testBit 6 <;> simp [h]
  constructor
  · intro h
    rw [is_candidate, Bool.and_eq_true, decide_eq_true_iff] at h
    exact ⟨h.1, hbit.1 h.2⟩
  · intro h1 h2
    rw [is_candidate, h1, Bool.true_and]
    exact decide_eq_true (hbit.2 h2)

/-- Witness for C8 at an owner-executable regular file (mode 0o100). -/
theorem c8_owner_exec_only_witness :
    (is_candidate true 64 = true ∧ true = true ∧ (64 : Nat).testBit 6 = true) ∧
    is_candidate true 64 = true :=
  ⟨⟨by decide, (c8_owner_exec_only true 64).1 (by decide)⟩,
   (c8_owner_exec_only true 64).2 rfl (by decide)⟩

/-- Claim C9: the emitted report is a function of the walked set only — two
enumerations of the same unchanged tree, in whatever order the traversal
yields them, produce identical per-architecture report content (including
an identical panic outcome). -/
theorem c9_report_deterministic :
    ∀ (w1 w2 : List (FsPath × ProcResult)), w1.Perm w2 →
      emit (scan w1) = emit (scan w2) :=
  fun _ _ hp => emit_congr (scan_forall₂ hp)

/-- Witness for C9 on two opposite-order two-binary walks. -/
theorem c9_report_deterministic_witness :
    (([([2], Except.ok (7, [[97]])), ([1], Except.ok (8, [[98]]))] :
        List (FsPath × ProcResult)).Perm
        [([1], Except.ok (8, [[98]])), ([2], Except.ok (7, [[97]]))]) ∧
    emit (scan [([2], Except.ok (7, [[97]])), ([1], Except.ok (8, [[98]]))]) =
      emit (scan [([1], Except.ok (8, [[98]])), ([2], Except.ok (7, [[97]]))]) :=
  ⟨by decide,
   c9_report_deterministic
     [([2], Except.ok (7, [[97]])), ([1], Except.ok (8, [[98]]))]
     [([1], Except.ok (8, [[98]])), ([2], Except.ok (7, [[97]]))] (by decide)⟩

/-- Claim C10: report emission converts every path with to_str().unwrap():
when every aggregated path is valid UTF-8 the report is produced, and a
scan whose binary sits at the non-UTF-8 path [255] panics during report
writing (emission yields none instead of a report). -/
theorem c10_to_str_unwrap :
    (∀ walk : List (FsPath × ProcResult),
      (∀ e ∈ walk, validUtf8 e.1 = true) →
      (emit (scan walk)).isSome = true) ∧
    emit (scan [([255], Except.ok (3, [[97]]))]) = none :=
  ⟨fun _ hv => emit_isSome_of_valid hv, by decide⟩

/-- Witness for C10 on an all-ASCII walk. -/
theorem c10_to_str_unwrap_witness :
    (∀ e ∈ ([([104], Except.ok (3, [[97]]))] : List (FsPath × ProcResult)),
      validUtf8 e.1 = true) ∧
    (emit (scan [([104], Except.ok (3, [[97]]))])).isSome = true :=
  ⟨by decide, c10_to_str_unwrap.1 [([104], Except.ok (3, [[97]]))] (by decide)⟩

